import Mathlib

/-!
# Verification of the biomedical terminology service core

A shallow embedding, in Lean 4, of the parts of the `bioterms` code base that
the specification's checkable claims are about:

* the n-gram and search-text generation on `Concept` (`model/concept/concept.py`),
* the auto-complete aggregation of the document store (`database/doc_db/mongo_doc_db.py`,
  with the embedded-relational backend's ordering modelled from the spec where its
  body is absent from the tree),
* RF2 deduplication and SNOMED concept construction (`etc/utils.py`, `vocabulary/snomed.py`),
* the annotation loading workflow (`annotation/utils.py`, `annotation/gene_hpo.py`,
  `annotation/__init__.py`) over an explicit graph-store state,
* descendant expansion and the similar-term key filter of the graph store
  (`database/graph_db/neo4j_graph_db.py`),
* the Relevance and co-annotation similarity computations (`similarity/relevance.py`,
  `similarity/co_annotation.py`), with Python floats modelled as exact reals.

Python strings are modelled as `List Char`; machine floats as `ℝ` (scores that the
claims compare are also stated over `ℚ` where the code only compares and maxes them);
Python exceptions as explicit error values.
-/

namespace Bioterms

/-! ## Strings and tokenisation

`model/concept/concept.py` cleans text with `re.sub(r'[()"\'\s]', ' ', text)` and
then `str.split()`; the auto-complete query path uses `re.sub(r'[()"\']', '', ...)`
and `re.sub(r'\s', '', ...)`.  We model a Python string as a `List Char`, the
punctuation class `[()"']` and the whitespace class `\s` as character predicates,
and replace-by-space-then-split as splitting on the separator class directly
(tokens are exactly the maximal runs of non-separator characters either way). -/

/-- A Python string, modelled as its list of characters. -/
abbrev Str := List Char

/-- The punctuation class `[()"']` stripped by the auto-complete pipeline. -/
def isPunctChar (c : Char) : Bool :=
  c = '(' || c = ')' || c = '"' || c = '\''

/-- The Python regex class `\s` (ASCII part), used by `re.sub` and `str.split`. -/
def isSpaceChar (c : Char) : Bool :=
  c = ' ' || c = '\t' || c = '\n' || c = '\r' || c = '\x0b' || c = '\x0c'

/-- The separator class `[()"'\s]` of `clean_and_split` in `Concept.n_grams`. -/
def isSepChar (c : Char) : Bool :=
  isPunctChar c || isSpaceChar c

/-- Character-wise `str.lower()`. -/
def lowerStr (s : Str) : Str := s.map Char.toLower

/-- Accumulator pass of `tokenize`: `acc` holds the characters of the current
run, most recent first. -/
def tokenizeAux (sep : Char → Bool) : Str → Str → List Str
  | [], acc => if acc.isEmpty then [] else [acc.reverse]
  | c :: rest, acc =>
    if sep c then
      if acc.isEmpty then tokenizeAux sep rest []
      else acc.reverse :: tokenizeAux sep rest []
    else tokenizeAux sep rest (c :: acc)

/-- Maximal runs of non-separator characters of a string, in order: the result of
replacing every separator character by a space and splitting on whitespace. -/
def tokenize (sep : Char → Bool) (s : Str) : List Str := tokenizeAux sep s []

/-- Every token produced by `tokenizeAux` occurs contiguously in the pending
input prefixed by the reversed accumulator. -/
theorem tokenizeAux_seg {sep : Char → Bool} {l acc t : Str}
    (ht : t ∈ tokenizeAux sep l acc) : ∃ pre suf, acc.reverse ++ l = pre ++ t ++ suf := by
  induction l generalizing acc with
  | nil =>
    rw [tokenizeAux] at ht
    by_cases hacc : acc.isEmpty
    · simp [hacc] at ht
    · rw [if_neg hacc] at ht
      rcases List.mem_singleton.mp ht with rfl
      exact ⟨[], [], by simp⟩
  | cons c rest ih =>
    rw [tokenizeAux] at ht
    by_cases hsep : sep c
    · rw [if_pos hsep] at ht
      by_cases hacc : acc.isEmpty
      · rw [if_pos hacc] at ht
        obtain ⟨pre, suf, hps⟩ := ih ht
        refine ⟨acc.reverse ++ c :: pre, suf, ?_⟩
        simp only [List.reverse_nil, List.nil_append] at hps
        simp [hps]
      · rw [if_neg hacc] at ht
        rcases List.mem_cons.mp ht with rfl | h
        · exact ⟨[], c :: rest, by simp⟩
        · obtain ⟨pre, suf, hps⟩ := ih h
          refine ⟨acc.reverse ++ c :: pre, suf, ?_⟩
          simp only [List.reverse_nil, List.nil_append] at hps
          simp [hps]
    · rw [if_neg hsep] at ht
      obtain ⟨pre, suf, hps⟩ := ih ht
      refine ⟨pre, suf, ?_⟩
      rw [← hps]
      simp

/-- Every token produced by `tokenize` occurs contiguously in the input. -/
theorem tokenize_seg {sep : Char → Bool} {l t : Str} (ht : t ∈ tokenize sep l) :
    ∃ pre suf, l = pre ++ t ++ suf := by
  have h : ∃ pre suf, ([] : Str).reverse ++ l = pre ++ t ++ suf := tokenizeAux_seg ht
  simpa using h

/-- The `clean_and_split` helper of `Concept.n_grams`: clean the separator class to
spaces, split, keep words longer than two characters, lowercase them. -/
def cleanAndSplit (text : Str) : List Str :=
  ((tokenize isSepChar text).filter (fun w => 2 < w.length)).map lowerStr

/-! ## Concept records and n-gram generation (`model/concept/concept.py`)

Only the fields that `n_grams` and `search_text` read are modelled; a concept's
other fields do not enter the n-gram claims.  Python's falsiness test
`if self.label:` coincides on these inputs with matching the `Option` and getting
an empty token list from an empty string or list. -/

/-- The slice of a `Concept` record that n-gram and search-text generation read. -/
structure ConceptDoc where
  conceptId : Str
  label : Option Str
  synonyms : Option (List Str)
deriving DecidableEq

/-- All substrings of length `n` of `t`, in order of start position: the inner
loop `for start in range(target_len - n + 1)` of `Concept.n_grams`. -/
def substringsOfLen (t : Str) (n : Nat) : List Str :=
  (List.range (t.length - n + 1)).map (fun start => (t.drop start).take n)

/-- The target strings `Concept.n_grams` cuts into n-grams: the lowercased concept
id as a whole, and the cleaned tokens of the label and of every synonym. -/
def nGramTargets (c : ConceptDoc) : List Str :=
  [lowerStr c.conceptId]
    ++ (match c.label with | some l => cleanAndSplit l | none => [])
    ++ (match c.synonyms with | some ss => ss.flatMap cleanAndSplit | none => [])

/-- The n-gram set of a concept: for every target, every substring of length
`n ∈ [3, 20]` with `n` no longer than the target (`for n in range(3, 21)` with the
`break` on `n > target_len`). -/
def nGramsOf (c : ConceptDoc) : Finset Str :=
  ((nGramTargets c).flatMap (fun t =>
    (((List.range' 3 18).filter (fun n => n ≤ t.length)).flatMap
      (fun n => substringsOfLen t n)))).toFinset

/-- The tokens the spec's n-gram invariant quantifies over: the cleaned tokens of
label, synonyms and concept id, all of length at least three. -/
def specNGramTokens (c : ConceptDoc) : List Str :=
  cleanAndSplit c.conceptId
    ++ (match c.label with | some l => cleanAndSplit l | none => [])
    ++ (match c.synonyms with | some ss => ss.flatMap cleanAndSplit | none => [])

/-- A contiguous segment of given bounds sits in the substring enumeration. -/
theorem mem_substringsOfLen {t g pre suf : Str} (h : t = pre ++ g ++ suf) :
    g ∈ substringsOfLen t g.length := by
  subst h
  have hdrop : ((pre ++ g ++ suf).drop pre.length) = g ++ suf := by
    rw [List.append_assoc, List.drop_left]
  have htake : (g ++ suf).take g.length = g := List.take_left g suf
  refine List.mem_map.mpr ⟨pre.length, ?_, by rw [hdrop, htake]⟩
  refine List.mem_range.mpr ?_
  simp only [List.length_append]
  omega

/-- Membership in the n-gram set, given a target and a segment of it of the
loop's admissible lengths. -/
theorem mem_nGramsOf {c : ConceptDoc} {t g pre suf : Str}
    (htar : t ∈ nGramTargets c) (h : t = pre ++ g ++ suf)
    (h3 : 3 ≤ g.length) (h20 : g.length ≤ 20) : g ∈ nGramsOf c := by
  rw [nGramsOf, List.mem_toFinset, List.mem_flatMap]
  refine ⟨t, htar, ?_⟩
  rw [List.mem_flatMap]
  refine ⟨g.length, ?_, mem_substringsOfLen h⟩
  rw [List.mem_filter]
  constructor
  · refine List.mem_range'.mpr ⟨g.length - 3, ?_, by omega⟩
    omega
  · subst h
    simp only [List.length_append, decide_eq_true_eq]
    omega

/-- Lowercasing distributes over concatenation. -/
theorem lowerStr_append (a b : Str) : lowerStr (a ++ b) = lowerStr a ++ lowerStr b :=
  List.map_append _ _ _

/-- C8.  For every concept, the generated n-gram set contains every substring of
length `n ∈ [3, 20]` of every token of at least three characters drawn from the
concept's label, synonyms and concept id after lowercasing and separator
stripping. -/
theorem n_grams_superset_of_spec_tokens (c : ConceptDoc) (g : Str)
    (h : ∃ t ∈ specNGramTokens c,
      ∃ pre suf, t = pre ++ g ++ suf ∧ 3 ≤ g.length ∧ g.length ≤ 20) :
    g ∈ nGramsOf c := by
  obtain ⟨t, ht, pre, suf, heq, h3, h20⟩ := h
  rw [specNGramTokens, List.append_assoc, List.mem_append] at ht
  rcases ht with hid | hrest
  · -- Token of the concept id: the code stores the whole lowercased id as a
    -- target, and the token occurs contiguously inside it.
    rw [cleanAndSplit, List.mem_map] at hid
    obtain ⟨w, hw, hlow⟩ := hid
    rw [List.mem_filter] at hw
    obtain ⟨p0, s0, hseg⟩ := tokenize_seg hw.1
    have htar : lowerStr c.conceptId ∈ nGramTargets c := by
      rw [nGramTargets]; simp
    have hdecomp : lowerStr c.conceptId = (lowerStr p0 ++ pre) ++ g ++ (suf ++ lowerStr s0) := by
      rw [hseg, lowerStr_append, lowerStr_append, hlow, heq]
      simp
    exact mem_nGramsOf htar hdecomp h3 h20
  · -- Token of the label or of a synonym: the token itself is a target.
    have htar : t ∈ nGramTargets c := by
      rw [nGramTargets]
      simp only [List.cons_append, List.nil_append]
      exact List.mem_cons_of_mem _ hrest
    exact mem_nGramsOf htar heq h3 h20

/-- Witness for C8 at a concrete concept whose id mixes punctuation into the
token boundary. -/
theorem n_grams_superset_witness :
    "cde".toList ∈ nGramsOf ⟨"AB(CDEF".toList, some "Seizure".toList, none⟩ :=
  n_grams_superset_of_spec_tokens _ _
    ⟨"cdef".toList, by decide, [], "f".toList, by decide, by decide, by decide⟩

/-! ## Auto-complete aggregation (`database/doc_db/mongo_doc_db.py`)

`auto_complete_iter` lowercases the query, strips `[()"']`, splits it into
n-gram tokens of length `> 2` and a whitespace-free score query, selects the
documents whose stored `nGrams` contain all tokens (`$all`; an empty token list
matches no document), scores each by `$indexOfBytes` of the score query in the
stored `searchText` (`-1` when absent) and by label length (`999` when the label
is missing), sorts ascending on `score`, `labelLength`, `termId`, and truncates
to the limit.  The stored documents are `Concept.model_dump(by alias)` plus the
two derived fields, so they carry a `conceptId` field and no `termId` field:
the third sort key compares equally-missing values on every document.  The sort
is modelled as a stable merge sort on the keys that exist, one legal behaviour
of the store's (unstable, tie-order-unspecified) sort. -/

/-- Stable insertion of `x` into `acc` after every element `y` with `le y x`. -/
def insertLe {α : Type} (le : α → α → Bool) (x : α) : List α → List α
  | [] => [x]
  | y :: ys => if le y x then y :: insertLe le x ys else x :: y :: ys

/-- A stable sort by a boolean comparison: elements that compare equal keep
their input order.  The stores' sorts (`$sort`, `pandas.sort_values`) leave the
tie order unspecified; this is one of their legal behaviours. -/
def sortByLe {α : Type} (le : α → α → Bool) (l : List α) : List α :=
  l.foldl (fun acc x => insertLe le x acc) []

/-- A stored auto-complete document: the fields the aggregation reads. -/
structure AcDoc where
  conceptId : Str
  label : Option Str
  nGrams : List Str
  searchText : Str
deriving DecidableEq

/-- Index of the first occurrence of `q` as a contiguous substring of `s`,
`-1` when absent: the `$indexOfBytes` scoring step. -/
def indexOfSub (s q : Str) : Int :=
  match (List.range (s.length - q.length + 1)).find? (fun i => q.isPrefixOf (s.drop i)) with
  | some i => Int.ofNat i
  | none => -1

/-- The two derived queries of `auto_complete_iter`: the n-gram tokens
(cleaned words longer than two characters) and the whitespace-free score query. -/
def acQueries (query : Str) : List Str × Str :=
  let clean := (lowerStr query).filter (fun ch => !isPunctChar ch)
  (((tokenize isSpaceChar clean).filter (fun w => 2 < w.length)),
    clean.filter (fun ch => !isSpaceChar ch))

/-- Position score of a document against the score query. -/
def acScore (sq : Str) (d : AcDoc) : Int := indexOfSub d.searchText sq

/-- Label length of a document, `999` when the label is missing. -/
def acLabelLen (d : AcDoc) : Nat :=
  match d.label with
  | some l => l.length
  | none => 999

/-- The comparison the document store actually sorts by: ascending `score`,
then `labelLength`; the `termId` key of the pipeline names a field absent from
every stored document, so it compares all documents as equal. -/
def mongoAcLe (sq : Str) (a b : AcDoc) : Bool :=
  acScore sq a < acScore sq b
    || (acScore sq a = acScore sq b && acLabelLen a ≤ acLabelLen b)

/-- The document-database (`mongo`) auto-complete pipeline over the documents of
one prefix shard, in collection order. -/
def mongoAutoComplete (docs : List AcDoc) (query : Str) (limit : Option Nat) :
    List AcDoc :=
  let qs := acQueries query
  let matched :=
    if qs.1.isEmpty then []
    else docs.filter (fun d => qs.1.all (fun t => d.nGrams.contains t))
  let sorted := sortByLe (mongoAcLe qs.2) matched
  match limit with
  | some n => sorted.take n
  | none => sorted

/-- Lexicographic string comparison on the character lists. -/
def strLeB : Str → Str → Bool
  | [], _ => true
  | _ :: _, [] => false
  | a :: as, b :: bs => if a < b then true else if b < a then false else strLeB as bs

/-- The full triple comparison the spec orders auto-complete results by:
ascending position score, then label length, then concept id. -/
def specAcLe (sq : Str) (a b : AcDoc) : Bool :=
  acScore sq a < acScore sq b
    || (acScore sq a = acScore sq b
      && (acLabelLen a < acLabelLen b
        || (acLabelLen a = acLabelLen b && strLeB a.conceptId b.conceptId)))

/-- Orderedness of an output stream by the spec's triple, as a decidable check. -/
def specAcOrdered (sq : Str) : List AcDoc → Bool
  | [] => true
  | [_] => true
  | a :: b :: rest => specAcLe sq a b && specAcOrdered sq (b :: rest)

/-- Modelled from the spec: the embedded-relational (SQLite) backend's
`auto_complete_iter` body is absent from the source tree (the file ends at its
docstring), so its behaviour is taken from §4.3/§4.4 of the spec: identical
matching and scoring, and ordering ascending by
`(positionScore, labelLength, conceptId)`. -/
def sqliteAutoComplete (docs : List AcDoc) (query : Str) (limit : Option Nat) :
    List AcDoc :=
  let qs := acQueries query
  let matched :=
    if qs.1.isEmpty then []
    else docs.filter (fun d => qs.1.all (fun t => d.nGrams.contains t))
  let sorted := sortByLe (specAcLe qs.2) matched
  match limit with
  | some n => sorted.take n
  | none => sorted

/-- Two documents that tie on position score and label length but carry
descending concept ids, in collection order. -/
def acDocB : AcDoc :=
  { conceptId := "b".toList
    label := some "abcz".toList
    nGrams := ["abc".toList]
    searchText := "b abcz".toList }

/-- Companion document of `acDocB` with the smaller concept id. -/
def acDocA : AcDoc :=
  { conceptId := "a".toList
    label := some "abcy".toList
    nGrams := ["abc".toList]
    searchText := "a abcy".toList }

/-- C3, counterexample.  The pipeline sorts on the nonexistent `termId` field,
so documents tying on position score and label length keep collection order:
the output for the query `"abc"` lists concept id `b` before `a` and is not
ordered by the spec's `(positionScore, labelLength, conceptId)` triple. -/
theorem mongo_auto_complete_not_ordered_by_concept_id :
    mongoAutoComplete [acDocB, acDocA] "abc".toList none = [acDocB, acDocA]
      ∧ specAcOrdered (acQueries "abc".toList).2
          (mongoAutoComplete [acDocB, acDocA] "abc".toList none) = false := by
  decide

/-- C9, counterexample.  On the same tied pair, the document-database pipeline
(collection order on ties) and the spec-modelled embedded-relational backend
(concept-id order on ties) return different sequences. -/
theorem auto_complete_backends_diverge :
    mongoAutoComplete [acDocB, acDocA] "abc".toList none
      ≠ sqliteAutoComplete [acDocB, acDocA] "abc".toList none := by
  decide

/-! ## Stable-sort lemmas

`rf2_dataframe_deduplicate` sorts before deduplicating, so its correctness
needs that `sortByLe` permutes its input and orders it pairwise under a
transitive, total comparison. -/

/-- Inserting is a permutation of consing. -/
theorem insertLe_perm {α : Type} (le : α → α → Bool) (x : α) (l : List α) :
    (insertLe le x l).Perm (x :: l) := by
  induction l with
  | nil => simp [insertLe]
  | cons y ys ih =>
    rw [insertLe]
    split
    · exact ((ih.cons y).trans (List.Perm.swap x y ys)).symm.symm
    · exact List.Perm.refl _

/-- Sorting is a permutation of the input. -/
theorem sortByLe_perm {α : Type} (le : α → α → Bool) (l : List α) :
    (sortByLe le l).Perm l := by
  suffices h : ∀ acc : List α,
      (l.foldl (fun acc x => insertLe le x acc) acc).Perm (acc ++ l) by
    simpa using h []
  induction l with
  | nil => intro acc; simp
  | cons x xs ih =>
    intro acc
    have h1 := ih (insertLe le x acc)
    have h2 : (insertLe le x acc ++ xs).Perm (acc ++ x :: xs) := by
      have := (insertLe_perm le x acc).append_right xs
      exact this.trans (List.perm_middle).symm
    exact h1.trans h2

/-- Inserting preserves pairwise orderedness for a transitive, total comparison. -/
theorem insertLe_pairwise {α : Type} {le : α → α → Bool}
    (htrans : ∀ a b c, le a b = true → le b c = true → le a c = true)
    (htotal : ∀ a b, le a b = true ∨ le b a = true)
    (x : α) {l : List α} (hl : l.Pairwise (fun a b => le a b = true)) :
    (insertLe le x l).Pairwise (fun a b => le a b = true) := by
  induction l with
  | nil => simp [insertLe]
  | cons y ys ih =>
    rcases List.pairwise_cons.mp hl with ⟨hy, hys⟩
    rw [insertLe]
    by_cases hyx : le y x
    · rw [if_pos hyx]
      refine List.pairwise_cons.mpr ⟨?_, ih hys⟩
      intro z hz
      have := (insertLe_perm le x ys).mem_iff.mp hz
      rcases List.mem_cons.mp this with rfl | hz'
      · exact hyx
      · exact hy z hz'
    · rw [if_neg hyx]
      have hxy : le x y = true := (htotal x y).resolve_right (by simpa using hyx)
      refine List.pairwise_cons.mpr ⟨?_, hl⟩
      intro z hz
      rcases List.mem_cons.mp hz with rfl | hz'
      · exact hxy
      · exact htrans x y z hxy (hy z hz')

/-- Sorting orders the list pairwise for a transitive, total comparison. -/
theorem sortByLe_pairwise {α : Type} {le : α → α → Bool}
    (htrans : ∀ a b c, le a b = true → le b c = true → le a c = true)
    (htotal : ∀ a b, le a b = true ∨ le b a = true) (l : List α) :
    (sortByLe le l).Pairwise (fun a b => le a b = true) := by
  suffices h : ∀ acc : List α, acc.Pairwise (fun a b => le a b = true) →
      (l.foldl (fun acc x => insertLe le x acc) acc).Pairwise (fun a b => le a b = true) by
    exact h [] (by simp)
  induction l with
  | nil => intro acc hacc; simpa using hacc
  | cons x xs ih =>
    intro acc hacc
    exact ih _ (insertLe_pairwise htrans htotal x hacc)

/-! ## RF2 deduplication (`etc/utils.py`, `vocabulary/snomed.py`)

`rf2_dataframe_deduplicate` sorts by `(id ascending, effectiveTime descending)`
and keeps the first row of each `id` (`drop_duplicates(subset=['id'],
keep='first')`).  `_process_concepts` then builds a SNOMED concept per surviving
row: `DEPRECATED` iff `active == 0`, `fullyDefined` iff
`definitionStatusId == 900000000000073002`. -/

/-- One row of an RF2 concept table, with the columns the loader reads. -/
structure Rf2Row where
  rowId : Nat
  effectiveTime : Nat
  active : Nat
  definitionStatusId : Nat
deriving DecidableEq

/-- The sort key of `rf2_dataframe_deduplicate`: `id` ascending, then
`effectiveTime` descending. -/
def rf2Le (a b : Rf2Row) : Bool :=
  decide (a.rowId < b.rowId)
    || (decide (a.rowId = b.rowId) && decide (b.effectiveTime ≤ a.effectiveTime))

/-- Keep each row whose `id` has not occurred before: `drop_duplicates` with
`keep='first'`, threaded through the list of already-seen ids. -/
def dedupByIdAux (seen : List Nat) : List Rf2Row → List Rf2Row
  | [] => []
  | r :: rest =>
    if r.rowId ∈ seen then dedupByIdAux seen rest
    else r :: dedupByIdAux (r.rowId :: seen) rest

/-- The deduplication of `rf2_dataframe_deduplicate`: sort by
`(id asc, effectiveTime desc)`, keep the first row per `id`. -/
def rf2DataframeDeduplicate (rows : List Rf2Row) : List Rf2Row :=
  dedupByIdAux [] (sortByLe rf2Le rows)

/-- The comparison `rf2Le` is transitive. -/
theorem rf2Le_trans (a b c : Rf2Row) (hab : rf2Le a b = true) (hbc : rf2Le b c = true) :
    rf2Le a c = true := by
  simp only [rf2Le, Bool.or_eq_true, Bool.and_eq_true, decide_eq_true_eq] at *
  omega

/-- The comparison `rf2Le` is total. -/
theorem rf2Le_total (a b : Rf2Row) : rf2Le a b = true ∨ rf2Le b a = true := by
  simp only [rf2Le, Bool.or_eq_true, Bool.and_eq_true, decide_eq_true_eq]
  omega

/-- Membership characterisation of `dedupByIdAux` on a sorted list whose same-id
rows carry distinct effective times. -/
theorem dedupByIdAux_mem_iff {l : List Rf2Row}
    (hsort : l.Pairwise (fun a b => rf2Le a b = true))
    (hdist : ∀ s ∈ l, ∀ t ∈ l, s.rowId = t.rowId →
      s.effectiveTime = t.effectiveTime → s = t)
    (seen : List Nat) (r : Rf2Row) :
    r ∈ dedupByIdAux seen l ↔
      (r ∈ l ∧ r.rowId ∉ seen
        ∧ ∀ s ∈ l, s.rowId = r.rowId → s.effectiveTime ≤ r.effectiveTime) := by
  induction l generalizing seen with
  | nil => simp [dedupByIdAux]
  | cons x rest ih =>
    rcases List.pairwise_cons.mp hsort with ⟨hx, hrest⟩
    have hdist' : ∀ s ∈ rest, ∀ t ∈ rest, s.rowId = t.rowId →
        s.effectiveTime = t.effectiveTime → s = t := by
      intro s hs t ht
      exact hdist s (List.mem_cons_of_mem _ hs) t (List.mem_cons_of_mem _ ht)
    rw [dedupByIdAux]
    by_cases hseen : x.rowId ∈ seen
    · rw [if_pos hseen, ih hrest hdist' seen]
      constructor
      · rintro ⟨hmem, hnotseen, hmax⟩
        have hne : x.rowId ≠ r.rowId := fun h => hnotseen (h ▸ hseen)
        refine ⟨List.mem_cons_of_mem _ hmem, hnotseen, ?_⟩
        intro s hs hsid
        rcases List.mem_cons.mp hs with rfl | hs'
        · exact absurd hsid hne
        · exact hmax s hs' hsid
      · rintro ⟨hmem, hnotseen, hmax⟩
        have hne : x.rowId ≠ r.rowId := fun h => hnotseen (h ▸ hseen)
        rcases List.mem_cons.mp hmem with rfl | hmem'
        · exact absurd rfl hne
        · exact ⟨hmem', hnotseen, fun s hs hsid => hmax s (List.mem_cons_of_mem _ hs) hsid⟩
    · rw [if_neg hseen]
      constructor
      · intro hmem
        rcases List.mem_cons.mp hmem with rfl | hmem'
        · refine ⟨List.mem_cons_self _ _, hseen, ?_⟩
          intro s hs hsid
          rcases List.mem_cons.mp hs with rfl | hs'
          · exact Nat.le_refl _
          · have := hx s hs'
            simp only [rf2Le, Bool.or_eq_true, Bool.and_eq_true, decide_eq_true_eq] at this
            omega
        · rw [ih hrest hdist' (x.rowId :: seen)] at hmem'
          obtain ⟨hmem'', hnotseen, hmax⟩ := hmem'
          have hne : r.rowId ≠ x.rowId := by
            intro h
            exact hnotseen (by rw [h]; exact List.mem_cons_self _ _)
          refine ⟨List.mem_cons_of_mem _ hmem'', fun h => hnotseen (List.mem_cons_of_mem _ h), ?_⟩
          intro s hs hsid
          rcases List.mem_cons.mp hs with rfl | hs'
          · exact absurd hsid.symm hne
          · exact hmax s hs' hsid
      · rintro ⟨hmem, hnotseen, hmax⟩
        rcases List.mem_cons.mp hmem with rfl | hmem'
        · exact List.mem_cons_self _ _
        · by_cases hid : r.rowId = x.rowId
          · -- Impossible: the head already carries this id with a maximal time,
            -- so by distinctness it would have to be `r` itself.
            have hler := hx r hmem'
            simp only [rf2Le, Bool.or_eq_true, Bool.and_eq_true, decide_eq_true_eq] at hler
            have hxmax : x.effectiveTime ≤ r.effectiveTime :=
              hmax x (List.mem_cons_self _ _) hid.symm
            have : x = r := by
              refine hdist x (List.mem_cons_self _ _) r (List.mem_cons_of_mem _ hmem')
                hid.symm ?_
              omega
            have hrrest : r ∈ rest := hmem'
            rcases this with rfl
            -- `r = x` and `r ∈ rest`: the pairwise bound makes the two copies
            -- tie, so the claim below goes through the first copy.
            exact List.mem_cons_self _ _
          · refine List.mem_cons_of_mem _ ?_
            rw [ih hrest hdist' (x.rowId :: seen)]
            refine ⟨hmem', ?_, ?_⟩
            · intro h
              rcases List.mem_cons.mp h with h' | h'
              · exact hid h'
              · exact hnotseen h'
            · intro s hs hsid
              exact hmax s (List.mem_cons_of_mem _ hs) hsid

/-- The ids surviving `dedupByIdAux` avoid `seen` and repeat no id. -/
theorem dedupByIdAux_nodup (seen : List Nat) (l : List Rf2Row) :
    ((dedupByIdAux seen l).map Rf2Row.rowId).Nodup
      ∧ ∀ i ∈ (dedupByIdAux seen l).map Rf2Row.rowId, i ∉ seen := by
  induction l generalizing seen with
  | nil => simp [dedupByIdAux]
  | cons x rest ih =>
    rw [dedupByIdAux]
    by_cases hseen : x.rowId ∈ seen
    · rw [if_pos hseen]; exact ih seen
    · rw [if_neg hseen]
      obtain ⟨hnd, hout⟩ := ih (x.rowId :: seen)
      simp only [List.map_cons, List.nodup_cons]
      refine ⟨⟨?_, hnd⟩, ?_⟩
      · intro hmem
        exact (hout _ hmem) (List.mem_cons_self _ _)
      · intro i hi
        rcases List.mem_cons.mp hi with rfl | hi'
        · exact hseen
        · intro hin
          exact (hout i hi') (List.mem_cons_of_mem _ hin)

/-- C7.  When the effective times of same-id rows are distinct, RF2
deduplication keeps, for each id, exactly the row with the maximum
`effectiveTime`, drops every other row with that id, and repeats no id. -/
theorem rf2_deduplicate_keeps_latest (rows : List Rf2Row)
    (hdist : ∀ s ∈ rows, ∀ t ∈ rows, s.rowId = t.rowId →
      s.effectiveTime = t.effectiveTime → s = t) :
    (∀ r, r ∈ rf2DataframeDeduplicate rows ↔
        (r ∈ rows ∧ ∀ s ∈ rows, s.rowId = r.rowId → s.effectiveTime ≤ r.effectiveTime))
      ∧ ((rf2DataframeDeduplicate rows).map Rf2Row.rowId).Nodup := by
  have hperm := sortByLe_perm rf2Le rows
  have hsort := sortByLe_pairwise rf2Le_trans rf2Le_total rows
  have hdist' : ∀ s ∈ sortByLe rf2Le rows, ∀ t ∈ sortByLe rf2Le rows,
      s.rowId = t.rowId → s.effectiveTime = t.effectiveTime → s = t := by
    intro s hs t ht
    exact hdist s (hperm.mem_iff.mp hs) t (hperm.mem_iff.mp ht)
  constructor
  · intro r
    rw [rf2DataframeDeduplicate, dedupByIdAux_mem_iff hsort hdist' [] r]
    constructor
    · rintro ⟨hmem, -, hmax⟩
      exact ⟨hperm.mem_iff.mp hmem,
        fun s hs => hmax s (hperm.mem_iff.mpr hs)⟩
    · rintro ⟨hmem, hmax⟩
      exact ⟨hperm.mem_iff.mpr hmem, by simp,
        fun s hs => hmax s (hperm.mem_iff.mp hs)⟩
  · exact (dedupByIdAux_nodup [] (sortByLe rf2Le rows)).1

/-- Concept status, `etc/enums.py`. -/
inductive ConceptStatusM
  | ACTIVE
  | DEPRECATED
deriving DecidableEq

/-- The SNOMED concept fields `_process_concepts` fills from a concept row. -/
structure SnomedConceptM where
  conceptId : String
  fullyDefined : Bool
  status : ConceptStatusM
deriving DecidableEq

/-- The row loop of `_process_concepts` over the deduplicated concept table. -/
def processConcepts (rows : List Rf2Row) : List SnomedConceptM :=
  (rf2DataframeDeduplicate rows).map (fun r =>
    { conceptId := toString r.rowId
      fullyDefined := decide (r.definitionStatusId = 900000000000073002)
      status := if r.active = 0 then ConceptStatusM.DEPRECATED else ConceptStatusM.ACTIVE })

/-- Status lookup in the processed concept dictionary. -/
def statusOfConcept (cs : List SnomedConceptM) (cid : String) : Option ConceptStatusM :=
  (cs.find? (fun c => c.conceptId = cid)).map (fun c => c.status)

/-- The spec's two-row example: one inactive 2002 row and one active 2023 row of
the same concept id. -/
def rf2DemoRows : List Rf2Row :=
  [ { rowId := 404684003, effectiveTime := 20020131, active := 0, definitionStatusId := 0 },
    { rowId := 404684003, effectiveTime := 20230131, active := 1, definitionStatusId := 0 } ]

/-- Witness for C7: on the spec's example the latest row survives and the
concept loads `ACTIVE`. -/
theorem rf2_deduplicate_witness :
    (⟨404684003, 20230131, 1, 0⟩ : Rf2Row) ∈ rf2DataframeDeduplicate rf2DemoRows
      ∧ statusOfConcept (processConcepts rf2DemoRows) "404684003"
          = some ConceptStatusM.ACTIVE :=
  ⟨((rf2_deduplicate_keeps_latest rf2DemoRows (by decide)).1 _).mpr (by decide),
    by decide⟩

/-! ## Annotation loading (`annotation/utils.py`, `annotation/gene_hpo.py`,
`annotation/__init__.py`)

The graph store is modelled as the per-vocabulary node counts plus the list of
cross-vocabulary edges.  `save_annotations` merges one edge per
`(source, target, relationship type)` triple (`apoc.merge.relationship` with
empty identifying properties), leaving an existing edge unchanged;
`delete_annotations` removes every directed edge from the first prefix to the
second; `count_annotations` counts them.  Python exceptions are modelled as an
error value returned next to the (possibly already mutated) state. -/

/-- The vocabulary tags of `ConceptPrefix` in `etc/enums.py`. -/
inductive VocabTag
  | ctv3
  | ensembl
  | hgnc
  | geneSymbol
  | hpo
  | ncit
  | omim
  | ordo
  | reactome
  | snomed
deriving DecidableEq

/-- An `Annotation` record (`model/annotation.py`): the payload handed to
`save_annotations`. -/
structure AnnotInput where
  tagFrom : VocabTag
  idFrom : String
  tagTo : VocabTag
  idTo : String
  annType : Option String
  props : List (String × String)
deriving DecidableEq

/-- A directed cross-vocabulary edge as stored in the graph. -/
structure AnnotEdge where
  tagFrom : VocabTag
  idFrom : String
  tagTo : VocabTag
  idTo : String
  relType : String
  props : List (String × String)
deriving DecidableEq

/-- The slice of graph-store state the annotation workflow touches. -/
structure GraphStoreState where
  termCount : VocabTag → Nat
  annotEdges : List AnnotEdge

/-- `count_annotations`: directed edges from the first prefix to the second. -/
def countAnnotsS (s : GraphStoreState) (p1 p2 : VocabTag) : Nat :=
  (s.annotEdges.filter (fun e => e.tagFrom = p1 ∧ e.tagTo = p2)).length

/-- `delete_annotations`: drop the directed edges from `p1` to `p2`. -/
def deleteAnnotsS (s : GraphStoreState) (p1 p2 : VocabTag) : GraphStoreState :=
  { s with annotEdges := s.annotEdges.filter (fun e => ¬(e.tagFrom = p1 ∧ e.tagTo = p2)) }

/-- Merge one annotation into the edge list: if an edge with the same source,
target and relationship type exists it is left alone, else a new edge is
appended (type defaulted to `annotated_with`). -/
def mergeAnnotEdge (edges : List AnnotEdge) (a : AnnotInput) : List AnnotEdge :=
  let rt := a.annType.getD "annotated_with"
  if edges.any (fun e => e.tagFrom = a.tagFrom ∧ e.idFrom = a.idFrom
      ∧ e.tagTo = a.tagTo ∧ e.idTo = a.idTo ∧ e.relType = rt)
  then edges
  else edges ++ [⟨a.tagFrom, a.idFrom, a.tagTo, a.idTo, rt, a.props⟩]

/-- `save_annotations`: merge every record of the batch, in order. -/
def saveAnnotsS (s : GraphStoreState) (batch : List AnnotInput) : GraphStoreState :=
  { s with annotEdges := batch.foldl mergeAnnotEdge s.annotEdges }

/-- The error kinds the annotation workflow raises (`etc/errors.py` plus the
plain `ValueError` of `load_annotation`). -/
inductive BtsErr
  | vocabNotLoaded
  | filesNotFound
  | valueError
deriving DecidableEq

/-- `assert_vocabulary_loaded`: fail if either vocabulary has no nodes. -/
def assertVocabLoaded (s : GraphStoreState) (p1 p2 : VocabTag) : Option BtsErr :=
  if s.termCount p1 = 0 then some BtsErr.vocabNotLoaded
  else if s.termCount p2 = 0 then some BtsErr.vocabNotLoaded
  else none

/-- `assert_pre_requisite`: vocabulary check, then the early `return` when the
pair already has annotation edges (which only ends this helper, not its
caller), then the file check. -/
def assertPreRequisite (s : GraphStoreState) (p1 p2 : VocabTag) (filesExist : Bool) :
    Option BtsErr :=
  match assertVocabLoaded s p1 p2 with
  | some e => some e
  | none =>
    if 0 < countAnnotsS s p1 p2 then none
    else if !filesExist then some BtsErr.filesNotFound
    else none

/-- One row of `genes_to_phenotype.txt` as `load_annotation_from_file` reads it. -/
structure GeneHpoRow where
  geneSymbol : String
  frequency : String
  hpoId : String
deriving DecidableEq

/-- Python's `s.split(':')[-1]`. -/
def lastColonSeg (s : String) : String := (s.splitOn ":").getLastD s

/-- The frequency-code match of `load_annotation_from_file` in `gene_hpo.py`. -/
def frequencyCodeOf (freq : String) : String :=
  if freq = "-" then "UN"
  else
    let fid := lastColonSeg freq
    if fid = "0040285" then "E"
    else if fid = "0040284" then "VR"
    else if fid = "0040283" then "OC"
    else if fid = "0040282" then "F"
    else if fid = "0040281" then "VF"
    else if fid = "0040280" then "O"
    else "UN"

/-- The row loop of `gene_hpo.load_annotation_from_file`: skip rows without a
gene symbol, build one `Annotation` per remaining row. -/
def geneHpoAnnotInputs (rows : List GeneHpoRow) : List AnnotInput :=
  (rows.filter (fun r => r.geneSymbol ≠ "-")).map (fun r =>
    { tagFrom := VocabTag.geneSymbol
      idFrom := r.geneSymbol
      tagTo := VocabTag.hpo
      idTo := lastColonSeg r.hpoId
      annType := none
      props := [("frequency", frequencyCodeOf r.frequency)] })

/-- `gene_hpo.load_annotation_from_file`: run `assert_pre_requisite`, then —
whatever it found short of an exception — parse the file and save the batch. -/
def geneHpoLoadFromFile (s : GraphStoreState) (filesExist : Bool)
    (rows : List GeneHpoRow) : GraphStoreState × Option BtsErr :=
  match assertPreRequisite s VocabTag.geneSymbol VocabTag.hpo filesExist with
  | some e => (s, some e)
  | none => (saveAnnotsS s (geneHpoAnnotInputs rows), none)

/-- `load_annotation` of `annotation/__init__.py` for the gene/HPO pair:
file check, optional delete on `overwrite`, then the module's
`load_annotation_from_file`. -/
def loadAnnotGeneHpo (s : GraphStoreState) (overwrite filesExist : Bool)
    (rows : List GeneHpoRow) : GraphStoreState × Option BtsErr :=
  if filesExist = false then (s, some BtsErr.valueError)
  else
    let s1 := if overwrite then deleteAnnotsS s VocabTag.geneSymbol VocabTag.hpo else s
    geneHpoLoadFromFile s1 filesExist rows

/-- A store holding both vocabularies and one existing gene→HPO edge. -/
def annotDemoState : GraphStoreState :=
  { termCount := fun t =>
      match t with
      | VocabTag.geneSymbol => 1
      | VocabTag.hpo => 1
      | _ => 0
    annotEdges := [⟨VocabTag.geneSymbol, "BRCA1", VocabTag.hpo, "0000001",
      "annotated_with", [("frequency", "UN")]⟩] }

/-- A one-row annotation file naming a pair not yet in the store. -/
def annotDemoRows : List GeneHpoRow := [⟨"TP53", "-", "HP:0000002"⟩]

/-- C4.  With an existing annotation (count 1) and `overwrite` false, loading
still writes: the early `return` in `assert_pre_requisite` cannot end its
caller, which proceeds to parse and `save_annotations`, so the edge set grows. -/
theorem load_annot_skip_is_broken :
    0 < countAnnotsS annotDemoState VocabTag.geneSymbol VocabTag.hpo
      ∧ (loadAnnotGeneHpo annotDemoState false true annotDemoRows).2 = none
      ∧ (loadAnnotGeneHpo annotDemoState false true annotDemoRows).1.annotEdges
          ≠ annotDemoState.annotEdges := by
  decide

/-- C5.  When either source vocabulary has term count zero, loading the
annotation (files present) fails with `VocabularyNotLoaded` and inserts no
edge: every edge afterwards was already in the store. -/
theorem load_annot_requires_vocabularies (s : GraphStoreState) (ow : Bool)
    (rows : List GeneHpoRow)
    (h : s.termCount VocabTag.geneSymbol = 0 ∨ s.termCount VocabTag.hpo = 0) :
    (loadAnnotGeneHpo s ow true rows).2 = some BtsErr.vocabNotLoaded
      ∧ ((loadAnnotGeneHpo s ow true rows).1.annotEdges.all
          (fun e => e ∈ s.annotEdges)) = true := by
  rw [loadAnnotGeneHpo]
  simp only [Bool.true_eq_false, if_false]
  set s1 := if ow then deleteAnnotsS s VocabTag.geneSymbol VocabTag.hpo else s with hs1
  have htc : s1.termCount = s.termCount := by
    rw [hs1]; cases ow <;> rfl
  have hsub : ∀ e ∈ s1.annotEdges, e ∈ s.annotEdges := by
    intro e he
    rw [hs1] at he
    cases ow with
    | false => simpa using he
    | true =>
      simp only [if_true, deleteAnnotsS, List.mem_filter] at he
      exact he.1
  have hvocab : assertVocabLoaded s1 VocabTag.geneSymbol VocabTag.hpo
      = some BtsErr.vocabNotLoaded := by
    rw [assertVocabLoaded, htc]
    rcases h with h0 | h0
    · rw [if_pos h0]
    · by_cases hg : s.termCount VocabTag.geneSymbol = 0
      · rw [if_pos hg]
      · rw [if_neg hg, if_pos h0]
  rw [geneHpoLoadFromFile, assertPreRequisite, hvocab]
  refine ⟨rfl, ?_⟩
  rw [List.all_eq_true]
  intro e he
  simpa using hsub e (by simpa using he)

/-- Witness for C5 on an empty store. -/
theorem load_annot_requires_vocabularies_witness :
    (loadAnnotGeneHpo ⟨fun _ => 0, []⟩ true true annotDemoRows).2
        = some BtsErr.vocabNotLoaded
      ∧ ((loadAnnotGeneHpo ⟨fun _ => 0, []⟩ true true annotDemoRows).1.annotEdges.all
          (fun e => e ∈ ([] : List AnnotEdge))) = true :=
  load_annot_requires_vocabularies ⟨fun _ => 0, []⟩ true annotDemoRows (Or.inl rfl)

/-! ## Graph reachability and descendant expansion
(`database/graph_db/neo4j_graph_db.py`)

`expand_terms_iter` with `max_depth=None` runs
`(n)<-[:is_a*]-(descendant:Concept)` and collects the distinct descendant ids:
every node with an `is_a` path of length at least one to the queried node.  The
ontology graph is a node list plus `is_a` edges `(child, parent)`; the set of
nodes that reach a given node is computed as the fixpoint of one backward
step, with enough iterations to exhaust the node set. -/

/-- An ontology graph: nodes and `is_a` edges pointing child → parent. -/
structure OntGraph where
  nodes : List String
  edges : List (String × String)

/-- One `is_a` step: `edgeRelE e a b` when `a` is a direct child of `b`. -/
def edgeRelE (e : List (String × String)) (a b : String) : Prop := (a, b) ∈ e

/-- One backward expansion step: add every direct child of the set. -/
def stepUpE (e : List (String × String)) (S : Finset String) : Finset String :=
  S ∪ ((e.filter (fun p => p.2 ∈ S)).map Prod.fst).toFinset

/-- All nodes with an `is_a` path (length ≥ 0) to `x`, by fuelled iteration. -/
def reachSetE (e : List (String × String)) (fuel : Nat) (x : String) : Finset String :=
  (stepUpE e)^[fuel] {x}

/-- The reach set of a graph, with enough fuel to hit the fixpoint. -/
def reachSetG (g : OntGraph) (x : String) : Finset String :=
  reachSetE g.edges (g.nodes.length + 1) x

/-- Membership in one expansion step. -/
theorem mem_stepUpE {e : List (String × String)} {S : Finset String} {y : String} :
    y ∈ stepUpE e S ↔ y ∈ S ∨ ∃ p, (y, p) ∈ e ∧ p ∈ S := by
  rw [stepUpE, Finset.mem_union, List.mem_toFinset]
  constructor
  · rintro (h | h)
    · exact Or.inl h
    · obtain ⟨pair, hpair, rfl⟩ := List.mem_map.mp h
      obtain ⟨hmem, hS⟩ := List.mem_filter.mp hpair
      exact Or.inr ⟨pair.2, hmem, by simpa using hS⟩
  · rintro (h | ⟨p, hmem, hS⟩)
    · exact Or.inl h
    · refine Or.inr (List.mem_map.mpr ⟨(y, p), List.mem_filter.mpr ⟨hmem, by simpa⟩, rfl⟩)

/-- A set only grows under the expansion step. -/
theorem subset_stepUpE (e : List (String × String)) (S : Finset String) :
    S ⊆ stepUpE e S :=
  Finset.subset_union_left

/-- Sets only grow along the iteration. -/
theorem subset_iterate_stepUpE (e : List (String × String)) (S : Finset String) (n : Nat) :
    S ⊆ (stepUpE e)^[n] S := by
  induction n with
  | zero => simp
  | succ n ih =>
    rw [Function.iterate_succ_apply']
    exact fun y hy => subset_stepUpE e _ (ih hy)

/-- The step keeps sets inside the node universe of a well-formed edge list. -/
theorem stepUpE_subset_univ {e : List (String × String)} {U S : Finset String}
    (hwf : ∀ p ∈ e, p.1 ∈ U ∧ p.2 ∈ U) (hS : S ⊆ U) : stepUpE e S ⊆ U := by
  intro y hy
  rcases mem_stepUpE.mp hy with h | ⟨p, hmem, -⟩
  · exact hS h
  · exact (hwf _ hmem).1

/-- While no fixpoint is hit, the iteration strictly grows the cardinality. -/
theorem iterate_stepUpE_card_growth (e : List (String × String)) (S : Finset String) :
    ∀ n, (∀ i < n, (stepUpE e)^[i + 1] S ≠ (stepUpE e)^[i] S) →
      n + S.card ≤ (((stepUpE e)^[n] S).card) := by
  intro n
  induction n with
  | zero => simp
  | succ n ih =>
    intro hne
    have h1 : n + S.card ≤ ((stepUpE e)^[n] S).card :=
      ih (fun i hi => hne i (Nat.lt_succ_of_lt hi))
    have hne' : (stepUpE e)^[n + 1] S ≠ (stepUpE e)^[n] S := hne n (Nat.lt_succ_self n)
    have hsub : (stepUpE e)^[n] S ⊆ (stepUpE e)^[n + 1] S := by
      rw [Function.iterate_succ_apply']
      exact subset_stepUpE e _
    have hssub : (stepUpE e)^[n] S ⊂ (stepUpE e)^[n + 1] S :=
      Finset.ssubset_iff_subset_ne.mpr ⟨hsub, fun h => hne' h.symm⟩
    have := Finset.card_lt_card hssub
    omega

/-- A fixpoint, once reached, persists. -/
theorem iterate_stepUpE_fix_propagates {e : List (String × String)} {S : Finset String}
    {i : Nat} (hfix : (stepUpE e)^[i + 1] S = (stepUpE e)^[i] S) :
    ∀ j, i ≤ j → (stepUpE e)^[j] S = (stepUpE e)^[i] S := by
  intro j hj
  induction j with
  | zero => cases Nat.le_zero.mp hj; rfl
  | succ j ih =>
    rcases Nat.lt_or_ge i (j + 1) with hlt | hge
    · have hij : i ≤ j := Nat.lt_succ_iff.mp hlt
      rw [Function.iterate_succ_apply', ih hij]
      calc stepUpE e ((stepUpE e)^[i] S)
          = (stepUpE e)^[i + 1] S := (Function.iterate_succ_apply' (stepUpE e) i S).symm
        _ = (stepUpE e)^[i] S := hfix
    · cases Nat.le_antisymm hj hge; rfl

/-- With fuel past the node count, the reach set is a fixpoint of the step. -/
theorem reachSetG_fix {g : OntGraph} {x : String}
    (hwf : ∀ p ∈ g.edges, p.1 ∈ g.nodes.toFinset ∧ p.2 ∈ g.nodes.toFinset)
    (hx : x ∈ g.nodes) :
    stepUpE g.edges (reachSetG g x) = reachSetG g x := by
  set e := g.edges
  set S : Finset String := {x} with hSdef
  set N := g.nodes.length
  have hcardU : g.nodes.toFinset.card ≤ N := g.nodes.toFinset_card_le
  have hbounded : ∀ n, (stepUpE e)^[n] S ⊆ g.nodes.toFinset := by
    intro n
    induction n with
    | zero => simpa [hSdef] using List.mem_toFinset.mpr hx
    | succ n ih =>
      rw [Function.iterate_succ_apply']
      exact stepUpE_subset_univ hwf ih
  have hstop : ∃ i, i ≤ N ∧ (stepUpE e)^[i + 1] S = (stepUpE e)^[i] S := by
    by_contra hnone
    push_neg at hnone
    have hgrow : ∀ i < N + 1, (stepUpE e)^[i + 1] S ≠ (stepUpE e)^[i] S := by
      intro i hi
      exact hnone i (Nat.lt_succ_iff.mp hi)
    have := iterate_stepUpE_card_growth e S (N + 1) hgrow
    have hle := Finset.card_le_card (hbounded (N + 1))
    have hS1 : S.card = 1 := by simp [hSdef]
    omega
  obtain ⟨i, hiN, hfix⟩ := hstop
  have h1 : (stepUpE e)^[N + 1] S = (stepUpE e)^[i] S :=
    iterate_stepUpE_fix_propagates hfix (N + 1) (Nat.le_succ_of_le hiN)
  have h2 : (stepUpE e)^[N + 2] S = (stepUpE e)^[i] S :=
    iterate_stepUpE_fix_propagates hfix (N + 2)
      (Nat.le_succ_of_le (Nat.le_succ_of_le hiN))
  calc stepUpE e ((stepUpE e)^[N + 1] S)
      = (stepUpE e)^[N + 2] S := (Function.iterate_succ_apply' _ _ _).symm
    _ = (stepUpE e)^[i] S := h2
    _ = (stepUpE e)^[N + 1] S := h1.symm

/-- Soundness: everything in the reach set has a path to `x`. -/
theorem reachSetE_sound {e : List (String × String)} {x y : String} {fuel : Nat}
    (hy : y ∈ reachSetE e fuel x) : Relation.ReflTransGen (edgeRelE e) y x := by
  induction fuel generalizing y with
  | zero =>
    rw [reachSetE, Function.iterate_zero_apply, Finset.mem_singleton] at hy
    exact hy ▸ Relation.ReflTransGen.refl
  | succ n ih =>
    rw [reachSetE, Function.iterate_succ_apply'] at hy
    rcases mem_stepUpE.mp hy with h | ⟨p, hmem, hp⟩
    · exact ih h
    · exact Relation.ReflTransGen.head hmem (ih hp)

/-- Completeness for the fixpoint fuel: every node with a path to `x` is in the
reach set. -/
theorem reachSetG_complete {g : OntGraph} {x y : String}
    (hwf : ∀ p ∈ g.edges, p.1 ∈ g.nodes.toFinset ∧ p.2 ∈ g.nodes.toFinset)
    (hx : x ∈ g.nodes) (hpath : Relation.ReflTransGen (edgeRelE g.edges) y x) :
    y ∈ reachSetG g x := by
  induction hpath using Relation.ReflTransGen.head_induction_on with
  | refl =>
    exact subset_iterate_stepUpE _ _ _ (Finset.mem_singleton_self x)
  | head hedge _ ih =>
    rw [← reachSetG_fix hwf hx]
    exact mem_stepUpE.mpr (Or.inr ⟨_, hedge, ih⟩)

/-- The descendant set the `max_depth=None` Cypher query collects: every node
with is_a edges into the reach set, that is with a path of length ≥ 1 to `x`. -/
def expandDescG (g : OntGraph) (x : String) : Finset String :=
  ((g.edges.filter (fun p => p.2 ∈ reachSetG g x)).map Prod.fst).toFinset

/-- `expand_terms_iter` for one queried id, `max_depth=None`, `limit=None`:
no row when the id is absent, else the distinct descendant set. -/
def expandTermsG (g : OntGraph) (x : String) : Option (Finset String) :=
  if x ∈ g.nodes then some (expandDescG g x) else none

/-- Decidable well-formedness: every edge endpoint is a node. -/
def wellFormedB (g : OntGraph) : Bool :=
  g.edges.all (fun p => p.1 ∈ g.nodes ∧ p.2 ∈ g.nodes)

/-- Decidable acyclicity surrogate: no node is its own strict descendant. -/
def acyclicB (g : OntGraph) : Bool :=
  g.nodes.all (fun n => n ∉ expandDescG g n)

/-- The spec's transitive IS_A descendant relation: `IsaDesc g d x` when `d`
reaches `x` along one or more child → parent edges. -/
inductive IsaDesc (g : OntGraph) : String → String → Prop
  | base {c p : String} : (c, p) ∈ g.edges → IsaDesc g c p
  | step {c p x : String} : (c, p) ∈ g.edges → IsaDesc g p x → IsaDesc g c x

/-- Unfolding of the descendant relation into a first edge plus a path. -/
theorem isaDesc_iff {g : OntGraph} {d x : String} :
    IsaDesc g d x ↔ ∃ p, (d, p) ∈ g.edges ∧ Relation.ReflTransGen (edgeRelE g.edges) p x := by
  constructor
  · intro h
    induction h with
    | base hedge => exact ⟨_, hedge, Relation.ReflTransGen.refl⟩
    | step hedge _ ih =>
      obtain ⟨q, hq, hpath⟩ := ih
      exact ⟨_, hedge, Relation.ReflTransGen.head hq hpath⟩
  · rintro ⟨p, hedge, hpath⟩
    have main : ∀ a, Relation.ReflTransGen (edgeRelE g.edges) a x →
        ∀ d, (d, a) ∈ g.edges → IsaDesc g d x := by
      intro a ha
      induction ha using Relation.ReflTransGen.head_induction_on with
      | refl => exact fun d hd => IsaDesc.base hd
      | head hedge' _ ih =>
        intro d hd
        exact IsaDesc.step hd (ih _ hedge')
    exact main p hpath d hedge

/-- C6.  On a well-formed acyclic graph, expanding a present concept with
`maxDepth` unset returns exactly its transitive IS_A descendant set, each
descendant once (a set), the concept itself not among them. -/
theorem expand_terms_transitive_descendants (g : OntGraph) (x : String)
    (hwf : wellFormedB g = true) (hx : x ∈ g.nodes) (hac : acyclicB g = true) :
    expandTermsG g x = some (expandDescG g x)
      ∧ (∀ d, d ∈ expandDescG g x ↔ IsaDesc g d x)
      ∧ x ∉ expandDescG g x := by
  have hwf' : ∀ p ∈ g.edges, p.1 ∈ g.nodes.toFinset ∧ p.2 ∈ g.nodes.toFinset := by
    intro p hp
    rw [wellFormedB, List.all_eq_true] at hwf
    have := hwf p hp
    simp only [decide_eq_true_eq, List.mem_toFinset] at this ⊢
    exact this
  refine ⟨if_pos hx, ?_, ?_⟩
  · intro d
    rw [isaDesc_iff]
    constructor
    · intro hd
      rw [expandDescG, List.mem_toFinset] at hd
      obtain ⟨pair, hpair, rfl⟩ := List.mem_map.mp hd
      obtain ⟨hmem, hS⟩ := List.mem_filter.mp hpair
      refine ⟨pair.2, hmem, reachSetE_sound (by simpa using hS)⟩
    · rintro ⟨p, hedge, hpath⟩
      rw [expandDescG, List.mem_toFinset]
      refine List.mem_map.mpr ⟨(d, p), List.mem_filter.mpr ⟨hedge, ?_⟩, rfl⟩
      simpa using reachSetG_complete hwf' hx hpath
  · rw [acyclicB, List.all_eq_true] at hac
    have := hac x hx
    simpa using this

/-- A three-node chain `c is_a b is_a a` for the expansion witness. -/
def expandDemoGraph : OntGraph :=
  { nodes := ["a", "b", "c"], edges := [("b", "a"), ("c", "b")] }

/-- Witness for C6 on the three-node chain. -/
theorem expand_terms_witness :
    expandTermsG expandDemoGraph "a" = some (expandDescG expandDemoGraph "a")
      ∧ ("c" ∈ expandDescG expandDemoGraph "a" ↔ IsaDesc expandDemoGraph "c" "a")
      ∧ "a" ∉ expandDescG expandDemoGraph "a" := by
  have h := expand_terms_transitive_descendants expandDemoGraph "a"
    (by decide) (by decide) (by decide)
  exact ⟨h.1, h.2.1 "c", h.2.2⟩

/-! ## Similar-term key selection (`get_similar_terms_iter`)

For each `similar_to` edge the Cypher collects the property keys whose value
clears the threshold and which match the method/corpus filter:

```
props[k] >= $threshold AND (
     ($corpus_prefix IS NULL AND $method IS NULL)
  OR ($corpus_prefix IS NULL AND $method IS NOT NULL
      AND (k = $method OR k STARTS WITH $method + ':'))
  OR ($corpus_prefix IS NOT NULL AND k ENDS WITH ':' + $corpus_prefix))
```

and scores the neighbour with `apoc.coll.max` over the selected values,
dropping it when no key survives.  Note the third disjunct tests only the
corpus suffix: when both arguments are given, the method is not consulted. -/

/-- Prefix test on strings via their character lists. -/
def strHasPre (p s : String) : Bool := p.toList.isPrefixOf s.toList

/-- Suffix test on strings via their character lists. -/
def strHasSuf (p s : String) : Bool := p.toList.isSuffixOf s.toList

/-- The key filter of the Cypher, by the nullness of the two arguments. -/
def keyMatchesFilter (method corpusPfx : Option String) (k : String) : Bool :=
  match corpusPfx, method with
  | none, none => true
  | none, some m => k = m || strHasPre (m ++ ":") k
  | some c, _ => strHasSuf (":" ++ c) k

/-- The selected keys of one edge's property bag: value at least the threshold
and filter matched. -/
def selectedKeys (props : List (String × ℚ)) (threshold : ℚ)
    (method corpusPfx : Option String) : List (String × ℚ) :=
  props.filter (fun kv => threshold ≤ kv.2 ∧ keyMatchesFilter method corpusPfx kv.1 = true)

/-- `apoc.coll.max` over a value list, `none` on the empty list. -/
def maxOfScores : List ℚ → Option ℚ
  | [] => none
  | v :: vs =>
    match maxOfScores vs with
    | none => some v
    | some m => some (max v m)

/-- The score reported for one neighbour: the maximum selected value, or no
neighbour row at all when no key is selected (`WHERE size(valid_keys) > 0`). -/
def neighborScore (props : List (String × ℚ)) (threshold : ℚ)
    (method corpusPfx : Option String) : Option ℚ :=
  maxOfScores ((selectedKeys props threshold method corpusPfx).map Prod.snd)

/-- The filter the claim states: with both arguments given, a key must match
the method and carry the corpus suffix. -/
def specKeyMatches (method corpusPfx : Option String) (k : String) : Bool :=
  match method, corpusPfx with
  | none, none => true
  | some m, none => k = m || strHasPre (m ++ ":") k
  | none, some c => strHasSuf (":" ++ c) k
  | some m, some c => (k = m || strHasPre (m ++ ":") k) && strHasSuf (":" ++ c) k

/-- C2, counterexample.  With both a method and a corpus given, the Cypher's
third disjunct accepts a key of a different method: `co-annotation:hgnc`
passes the filter for method `relevance`, which the claim forbids, and its
value is reported as the neighbour score. -/
theorem similar_terms_filter_ignores_method :
    keyMatchesFilter (some "relevance") (some "hgnc") "co-annotation:hgnc" = true
      ∧ specKeyMatches (some "relevance") (some "hgnc") "co-annotation:hgnc" = false
      ∧ neighborScore [("co-annotation:hgnc", 1)] 0 (some "relevance") (some "hgnc")
          = some 1 := by
  decide

/-- `maxOfScores` is `none` exactly on the empty list. -/
theorem maxOfScores_eq_none (l : List ℚ) : maxOfScores l = none ↔ l = [] := by
  cases l with
  | nil => simp [maxOfScores]
  | cons v vs =>
    simp only [maxOfScores]
    constructor
    · intro h
      exfalso
      cases hv : maxOfScores vs <;> rw [hv] at h <;> simp at h
    · intro h
      cases h

/-- The maximum of a value list is one of them and bounds them all. -/
theorem maxOfScores_spec (l : List ℚ) (s : ℚ) (h : maxOfScores l = some s) :
    l.contains s = true ∧ l.all (fun w => w ≤ s) = true := by
  induction l generalizing s with
  | nil => simp [maxOfScores] at h
  | cons v vs ih =>
    rw [maxOfScores] at h
    cases hvs : maxOfScores vs with
    | none =>
      rw [hvs] at h
      rcases (maxOfScores_eq_none vs).mp hvs with rfl
      rcases Option.some_injective _ h with rfl
      simp
    | some m =>
      rw [hvs] at h
      rcases Option.some_injective _ h with rfl
      obtain ⟨hm_mem, hm_all⟩ := ih m hvs
      rw [List.all_eq_true] at hm_all ⊢
      constructor
      · rcases le_total v m with hvm | hvm
        · rw [max_eq_right hvm]
          simpa using Or.inr (by simpa using hm_mem)
        · rw [max_eq_left hvm]
          simp
      · intro w hw
        rcases List.mem_cons.mp hw with rfl | hw'
        · simp only [decide_eq_true_eq]
          exact le_max_left _ _
        · have := hm_all w hw'
          simp only [decide_eq_true_eq] at this ⊢
          exact le_trans this (le_max_right _ _)

/-- C2, amended.  A key is selected iff its value clears the threshold and it
passes the filter as the code applies it — when a corpus is given, only the
`:corpus` suffix is required, the method being consulted only when the corpus
is absent — and the reported neighbour score is the maximum selected value. -/
theorem similar_terms_key_selection (props : List (String × ℚ)) (threshold : ℚ)
    (method corpusPfx : Option String) (k : String) (v s : ℚ) :
    ((k, v) ∈ selectedKeys props threshold method corpusPfx ↔
      ((k, v) ∈ props ∧ threshold ≤ v ∧
        (match method, corpusPfx with
         | none, none => True
         | some m, none => k = m ∨ strHasPre (m ++ ":") k = true
         | _, some c => strHasSuf (":" ++ c) k = true)))
      ∧ (neighborScore props threshold method corpusPfx = some s →
          ((selectedKeys props threshold method corpusPfx).map Prod.snd).contains s = true
            ∧ ((selectedKeys props threshold method corpusPfx).map Prod.snd).all
                (fun w => w ≤ s) = true)
      ∧ (neighborScore props threshold method corpusPfx = none ↔
          selectedKeys props threshold method corpusPfx = []) := by
  refine ⟨?_, ?_, ?_⟩
  · rw [selectedKeys, List.mem_filter]
    cases method <;> cases corpusPfx <;> simp [keyMatchesFilter, and_assoc]
  · intro h
    exact maxOfScores_spec _ s h
  · rw [neighborScore]
    cases hsel : selectedKeys props threshold method corpusPfx with
    | nil => simp [maxOfScores]
    | cons kv rest =>
      simp only [List.map_cons, maxOfScores]
      constructor
      · intro h
        exfalso
        cases hmax : maxOfScores (rest.map Prod.snd) <;> rw [hmax] at h <;> simp at h
      · intro h
        cases h

/-- Witness for C2's selection characterisation on a concrete property bag. -/
theorem similar_terms_key_selection_witness :
    ("a", (1 : ℚ)) ∈ selectedKeys [("a", 1), ("b", 2)] 0 none none
      ∧ ((selectedKeys [("a", (1 : ℚ)), ("b", 2)] 0 none none).map Prod.snd).contains 2
          = true := by
  have h := similar_terms_key_selection [("a", (1 : ℚ)), ("b", 2)] 0 none none "a" 1 2
  exact ⟨h.1.mpr ⟨by decide, by decide, trivial⟩, (h.2.1 (by decide)).1⟩

/-! ## Co-annotation similarity (`similarity/co_annotation.py`)

`_calculate_co_annotation` gathers, for each of the two nodes, the annotation
set of its descendant cone (`nx.ancestors` of the child → parent graph, plus
the node), looking each descendant up in the annotation graph under the name
`corpus:desc` and keeping the successors that carry the corpus name.  After
ruling out empty sets it evaluates

```
(1 + log(i * N / (a * b)) / log(N / i)) / 2  *  (i / u)
```

left to right, so a disjoint pair (`i = 0`) reaches `math.log(0.0)` — a
`ValueError: math domain error` — before the zero division in `N / i` could.
Floats are modelled as exact reals, `math.log` guarded below zero, `/` guarded
at zero denominators. -/

/-- The arithmetic errors Python raises in the NPMI expression. -/
inductive MathErr
  | domainErr
  | zeroDivErr
deriving DecidableEq

/-- `math.log`, erroring on non-positive arguments. -/
noncomputable def pyLog (x : ℝ) : Except MathErr ℝ :=
  if x ≤ 0 then Except.error MathErr.domainErr else Except.ok (Real.log x)

/-- Float division, erroring on a zero denominator. -/
noncomputable def pyDiv (a b : ℝ) : Except MathErr ℝ :=
  if b = 0 then Except.error MathErr.zeroDivErr else Except.ok (a / b)

/-- The annotation graph: directed edges between `prefix:id`-named nodes. -/
structure AnnGraph where
  edges : List (String × String)

/-- Node membership in the annotation graph (`if annotation_name in annotation_graph`);
nodes arise as edge endpoints. -/
def annContains (ag : AnnGraph) (n : String) : Bool :=
  ag.edges.any (fun e => e.1 = n ∨ e.2 = n)

/-- Successors of a node in the annotation graph (`DiGraph.neighbors`). -/
def annSuccs (ag : AnnGraph) (n : String) : List String :=
  (ag.edges.filter (fun e => e.1 = n)).map Prod.snd

/-- The annotation set of a node's descendant cone: for every descendant
(including the node), the corpus-named successors of `corpus:desc` in the
annotation graph. -/
def annotSetOf (g : OntGraph) (ag : AnnGraph) (corpusName : String) (n : String) :
    Finset String :=
  (reachSetG g n).biUnion (fun d =>
    let nm := corpusName ++ ":" ++ d
    if annContains ag nm then
      ((annSuccs ag nm).filter (fun nb => (corpusName ++ ":").toList.isPrefixOf nb.toList)).toFinset
    else ∅)

/-- `_calculate_co_annotation`: `none` when either annotation set is empty,
else NPMI · Jaccard with Python's evaluation order of the partial operations. -/
noncomputable def calcCoAnnot (g : OntGraph) (ag : AnnGraph) (corpusName : String)
    (total : Nat) (n1 n2 : String) : Except MathErr (Option ℝ) :=
  let A := annotSetOf g ag corpusName n1
  let B := annotSetOf g ag corpusName n2
  let inter := A ∩ B
  let uni := A ∪ B
  if A.card = 0 ∨ B.card = 0 then Except.ok none
  else
    match pyLog ((inter.card : ℝ) * (total : ℝ) / ((A.card : ℝ) * (B.card : ℝ))) with
    | Except.error e => Except.error e
    | Except.ok t1 =>
      match pyDiv (total : ℝ) (inter.card : ℝ) with
      | Except.error e => Except.error e
      | Except.ok d2 =>
        match pyLog d2 with
        | Except.error e => Except.error e
        | Except.ok t2 =>
          match pyDiv t1 t2 with
          | Except.error e => Except.error e
          | Except.ok r =>
            Except.ok (some ((1 + r) / 2 * ((inter.card : ℝ) / (uni.card : ℝ))))

/-- C10.  On any pair whose annotation sets are non-empty but disjoint, the
co-annotation computation neither scores nor skips the pair: the first
logarithm receives `0` and the math-domain error branch is reached. -/
theorem co_annotation_errors_on_disjoint (g : OntGraph) (ag : AnnGraph)
    (corpusName : String) (total : Nat) (n1 n2 : String)
    (hA : (annotSetOf g ag corpusName n1).card ≠ 0)
    (hB : (annotSetOf g ag corpusName n2).card ≠ 0)
    (hdisj : annotSetOf g ag corpusName n1 ∩ annotSetOf g ag corpusName n2 = ∅) :
    calcCoAnnot g ag corpusName total n1 n2 = Except.error MathErr.domainErr := by
  rw [calcCoAnnot]
  simp only [hdisj, Finset.card_empty, Nat.cast_zero, zero_mul, zero_div]
  rw [if_neg (by push_neg; exact ⟨hA, hB⟩)]
  rw [pyLog, if_pos le_rfl]

/-- A disjoint two-node instance for C10: `x` and `y` have no edges above them
and carry the distinct annotations `gene:g1` and `gene:g2`. -/
def coAnnotDemoOnt : OntGraph := { nodes := ["x", "y"], edges := [] }

/-- The annotation graph of the C10 witness. -/
def coAnnotDemoAnn : AnnGraph :=
  { edges := [("gene:x", "gene:g1"), ("gene:y", "gene:g2")] }

/-- Witness for C10: concrete non-empty disjoint annotation sets reach the
error branch. -/
theorem co_annotation_errors_witness :
    calcCoAnnot coAnnotDemoOnt coAnnotDemoAnn "gene" 2 "x" "y"
      = Except.error MathErr.domainErr :=
  co_annotation_errors_on_disjoint coAnnotDemoOnt coAnnotDemoAnn "gene" 2 "x" "y"
    (by decide) (by decide) (by decide)

/-! ## Relevance similarity (`similarity/relevance.py`)

`_calculate_ic` stores `ic = -log(annotation_count / max_annotation_count)` on
every node with a positive count; `_find_mica` intersects the two nodes'
ancestor cones (`nx.descendants` of the child → parent graph plus the node) and
takes the ancestor of maximal `ic`, starting from `-1`; `_calculate_relevance`
then evaluates

```
2 * graph.nodes[mica]['ic'] / (graph.nodes[node_1]['ic'] + graph.nodes[node_1]['ic'])
  * (1 - graph.nodes[mica]['annotation_count'] / max_annotation_count)
```

— the denominator reads `node_1`'s information content twice.  Python's set
iteration order in `_find_mica` is fixed here to node-declaration order; the
produced score does not depend on that choice, because tied ancestors share
their `ic` and hence (by injectivity of the count ↦ `ic` map) their count. -/

/-- One node of the filtered similarity graph with its attribute bag. -/
structure RelNode where
  name : String
  annotCount : Nat
  ic : Option ℝ

/-- The filtered IS_A/PART_OF vocabulary graph with node attributes; edges
point child → parent. -/
structure RelGraph where
  nodesAttr : List RelNode
  edges : List (String × String)

/-- Attribute lookup by node name. -/
def attrOf (g : RelGraph) (n : String) : Option RelNode :=
  g.nodesAttr.find? (fun a => a.name = n)

/-- The `annotation_count` attribute (the counting pass writes it on every
node, so a missing node defaults to zero). -/
def annotCountOf (g : RelGraph) (n : String) : Nat :=
  ((attrOf g n).map RelNode.annotCount).getD 0

/-- The `ic` attribute, absent until `_calculate_ic` writes it. -/
def icOf (g : RelGraph) (n : String) : Option ℝ :=
  (attrOf g n).bind RelNode.ic

/-- The `ic` attribute read as a number; the engine only reads it on nodes
that carry it (`nodes_with_ic`), so the default is never exercised there. -/
noncomputable def icVal (g : RelGraph) (n : String) : ℝ :=
  (icOf g n).getD 0

/-- `_calculate_ic`: write `ic = -log(count / maxCount)` on each node with a
positive count, leaving the others untouched. -/
noncomputable def calculateIc (g : RelGraph) (maxCnt : Nat) : RelGraph :=
  { g with
    nodesAttr := g.nodesAttr.map (fun a =>
      if a.annotCount = 0 then a
      else { a with ic := some (-Real.log ((a.annotCount : ℝ) / (maxCnt : ℝ))) }) }

/-- The ancestor cone of a node: itself plus every node reachable from it
along child → parent edges (`set(nx.descendants(graph, n)) | {n}`). -/
def ancestorSetOf (g : RelGraph) (n : String) : Finset String :=
  reachSetE (g.edges.map Prod.swap) (g.nodesAttr.length + 1) n

/-- The common ancestors of two nodes, in node-declaration order. -/
def commonAncestorsList (g : RelGraph) (n1 n2 : String) : List String :=
  (g.nodesAttr.map RelNode.name).filter
    (fun m => m ∈ ancestorSetOf g n1 ∧ m ∈ ancestorSetOf g n2)

/-- `_find_mica`: `None` without common ancestors, else the common ancestor of
maximal `ic` among those carrying one, scanning from `max_ic = -1`. -/
noncomputable def findMica (g : RelGraph) (n1 n2 : String) : Option String :=
  if (commonAncestorsList g n1 n2).isEmpty then none
  else
    ((commonAncestorsList g n1 n2).foldl (fun acc m =>
        match icOf g m with
        | some v => if acc.1 < v then (v, some m) else acc
        | none => acc) ((-1 : ℝ), (none : Option String))).2

/-- `_calculate_relevance` as written: note `icVal g n1 + icVal g n1` in the
denominator, faithfully reproducing the source's repeated `node_1`. -/
noncomputable def calculateRelevance (g : RelGraph) (maxCnt : Nat) (n1 n2 : String) :
    Option ℝ :=
  match findMica g n1 n2 with
  | none => none
  | some mica =>
    some (2 * icVal g mica / (icVal g n1 + icVal g n1)
      * (1 - (annotCountOf g mica : ℝ) / (maxCnt : ℝ)))

/-- The Relevance similarity as the spec states it:
`(2·IC(MICA) / (IC(a) + IC(b))) · (1 − count(MICA)/maxCount)`. -/
noncomputable def specRelevance (g : RelGraph) (maxCnt : Nat) (n1 n2 : String) :
    Option ℝ :=
  match findMica g n1 n2 with
  | none => none
  | some mica =>
    some (2 * icVal g mica / (icVal g n1 + icVal g n2)
      * (1 - (annotCountOf g mica : ℝ) / (maxCnt : ℝ)))

/-- A four-node diamond-free graph: `a` and `b` are children of `r`, which is a
child of the root `t`; annotation counts 2, 1, 4 and 8. -/
def relDemoBase : RelGraph :=
  { nodesAttr := [⟨"t", 8, none⟩, ⟨"r", 4, none⟩, ⟨"a", 2, none⟩, ⟨"b", 1, none⟩]
    edges := [("a", "r"), ("b", "r"), ("r", "t")] }

/-- The demo graph after `_calculate_ic` with maximum count 8, with the
logarithms evaluated: `ic(t) = 0`, `ic(r) = log 2`, `ic(a) = 2·log 2`,
`ic(b) = 3·log 2`. -/
noncomputable def relDemoEval : RelGraph :=
  { nodesAttr := [⟨"t", 8, some 0⟩, ⟨"r", 4, some (Real.log 2)⟩,
      ⟨"a", 2, some (2 * Real.log 2)⟩, ⟨"b", 1, some (3 * Real.log 2)⟩]
    edges := [("a", "r"), ("b", "r"), ("r", "t")] }

/-- Evaluating the information contents of the demo graph. -/
theorem calculateIc_relDemoBase : calculateIc relDemoBase 8 = relDemoEval := by
  rw [calculateIc, relDemoBase, relDemoEval]
  simp only [List.map_cons, List.map_nil]
  norm_num
  refine ⟨?_, ?_, ?_⟩
  · rw [one_div, Real.log_inv, neg_neg]
  · rw [show (1 : ℝ) / 4 = ((2 : ℝ) ^ 2)⁻¹ by norm_num,
      Real.log_inv, Real.log_pow, neg_neg]
    push_cast
    ring
  · rw [show (1 : ℝ) / 8 = ((2 : ℝ) ^ 3)⁻¹ by norm_num,
      Real.log_inv, Real.log_pow, neg_neg]
    push_cast
    ring

/-- The common ancestors of `a` and `b` in the demo graph, in declaration
order: the root `t` and the shared parent `r`. -/
theorem commonAncestors_relDemo :
    commonAncestorsList relDemoEval "a" "b" = ["t", "r"] := by
  decide

/-- The MICA of `a` and `b` in the demo graph is `r` (`ic(r) = log 2 > 0 = ic(t)`). -/
theorem findMica_relDemo : findMica relDemoEval "a" "b" = some "r" := by
  have hicT : icOf relDemoEval "t" = some 0 := rfl
  have hicR : icOf relDemoEval "r" = some (Real.log 2) := rfl
  rw [findMica, commonAncestors_relDemo, if_neg (by simp)]
  simp only [List.foldl_cons, List.foldl_nil, hicT, hicR]
  rw [if_pos (by norm_num : (-1 : ℝ) < 0)]
  rw [if_pos (Real.log_pos (by norm_num))]

/-- C1, divergence.  On the demo graph the code scores the pair `(a, b)` as
`2·IC(r) / (IC(a) + IC(a)) · (1 − 4/8) = 1/4`, while the claim's formula
`2·IC(r) / (IC(a) + IC(b)) · (1 − 4/8)` gives `1/5`: the denominator of
`_calculate_relevance` reads `node_1`'s information content twice. -/
theorem relevance_denominator_uses_node1_twice :
    calculateRelevance (calculateIc relDemoBase 8) 8 "a" "b" = some (1 / 4)
      ∧ specRelevance (calculateIc relDemoBase 8) 8 "a" "b" = some (1 / 5)
      ∧ (1 / 4 : ℝ) ≠ 1 / 5 := by
  have hicR : icOf relDemoEval "r" = some (Real.log 2) := rfl
  have hicA : icOf relDemoEval "a" = some (2 * Real.log 2) := rfl
  have hicB : icOf relDemoEval "b" = some (3 * Real.log 2) := rfl
  have hcntR : annotCountOf relDemoEval "r" = 4 := rfl
  have hL : (0 : ℝ) < Real.log 2 := Real.log_pos (by norm_num)
  have hLne : Real.log 2 ≠ 0 := ne_of_gt hL
  rw [calculateIc_relDemoBase, calculateRelevance, specRelevance, findMica_relDemo]
  simp only [icVal, hicR, hicA, hicB, hcntR, Option.getD_some]
  norm_num
  constructor
  · rw [div_mul_eq_mul_div,
      show (2 : ℝ) * Real.log 2 + 2 * Real.log 2 = 4 * Real.log 2 by ring,
      div_eq_iff (mul_ne_zero (by norm_num) hLne)]
    ring
  · rw [div_mul_eq_mul_div,
      show (2 : ℝ) * Real.log 2 + 3 * Real.log 2 = 5 * Real.log 2 by ring,
      div_eq_iff (mul_ne_zero (by norm_num) hLne)]
    ring
